import Mathlib

/-!
Verification of the AsyncCppRpc library (transport-agnostic C++ RPC framework)
against its natural-language specification.

The development shallowly embeds the parts of the source the claims depend on:

* the binary serialization codec (`Writer` / `Reader`, serializer.h):
  values are modelled by the deep embedding `Val`/`Ty`, the writer by
  `writeVal`, the reader by `readVal`.  The reader operates on a total byte
  memory `mem : Nat → Nat` plus a cursor, because the source reader performs
  no bounds checking: every primitive read copies unconditionally from
  whatever memory follows the payload and advances the cursor.
* the message model (`call_type`, `message_t`, transport.h): the header packs
  a 30-bit `call_id` bitfield and a 2-bit type tag.
* the connection engine (`connection.h`): `execute_request`, `do_call`,
  `do_void_call`, `stop` and the reader's reply-handling branch are modelled
  as pure state transformers over `conn_state`.
* the marshalling layer (`marshal.h`): `build_method_map` / `dispatch`
  (binary search over the sorted method-id table) and the FNV-1a method-id
  hash (`fnv_hash`, method_id.h).

Machine integers are modelled as `Nat` with explicit `% 2^w` where the source
relies on wraparound (the 32-bit call counter, the 30-bit header bitfield,
the 32-bit FNV accumulator, the u32 length and u16 tag casts).
-/

/-! ### Little-endian integer encodings used by the codec and the wire format -/

/-- Little-endian byte encoding of a 32-bit unsigned value, as produced by
`Writer::write(uint32_t)` (a `memcpy` of the 4-byte object representation). -/
def enc32 (n : Nat) : List Nat :=
  [n % 256, n / 256 % 256, n / 65536 % 256, n / 16777216 % 256]

/-- Little-endian byte encoding of a 16-bit unsigned value (the variant tag). -/
def enc16 (n : Nat) : List Nat :=
  [n % 256, n / 256 % 256]

/-- Reading a little-endian 32-bit value from byte memory at `pos`
(`Reader::read` for a trivially-copyable 4-byte integer). -/
def dec32 (mem : Nat → Nat) (pos : Nat) : Nat :=
  mem pos + 256 * mem (pos + 1) + 65536 * mem (pos + 2) + 16777216 * mem (pos + 3)

/-- Reading a little-endian 16-bit value from byte memory at `pos`. -/
def dec16 (mem : Nat → Nat) (pos : Nat) : Nat :=
  mem pos + 256 * mem (pos + 1)

/-- Reading a little-endian 32-bit value from the front of a byte list; models
`Reader{message.payload} >> code` for the 4-byte `HRESULT` error payload. -/
def dec32_list (bs : List Nat) : Nat :=
  bs.getD 0 0 + 256 * bs.getD 1 0 + 65536 * bs.getD 2 0 + 16777216 * bs.getD 3 0

/-- The block of `w` bytes starting at `pos`: what
`Reader::read(std::byte *destination, size_t size)` copies out.  The copy is
unconditional — there is no comparison against the end of the input span. -/
def readBytesL (w : Nat) (mem : Nat → Nat) (pos : Nat) : List Nat :=
  (List.range w).map fun j => mem (pos + j)

/-- The byte memory seen by a `Reader` constructed over the payload `bs`:
inside the span it returns the payload's bytes, past the end it returns
whatever bytes happen to follow in memory (`junk`). -/
def listMem (bs : List Nat) (junk : Nat → Nat) (i : Nat) : Nat :=
  if h : i < bs.length then bs.get ⟨i, h⟩ else junk (i - bs.length)

/-- `fits mem pos bs`: the memory contains exactly the bytes `bs` starting at
offset `pos`. -/
def fits (mem : Nat → Nat) (pos : Nat) (bs : List Nat) : Prop :=
  ∀ i, i < bs.length → mem (pos + i) = bs.getD i 0

/-! ### Deep embedding of the values and types the codec supports

`Val.prim bs` is any trivially-copyable scalar (fixed-width integer, float,
bool, enum) represented by its object-representation bytes, which is exactly
what `Writer::write` stores for such types.  `Val.tup` covers `std::tuple`,
`std::pair`-free aggregates described with BOOST_DESCRIBE_STRUCT (members in
declaration order) and the cista reflection fallback, all of which serialize
as the concatenation of their fields.  `ValList` is an inlined list so that
the recursions below stay structural. -/

mutual
inductive Val : Type where
  | prim (bs : List Nat)
  | str (cs : List Nat)
  | vec (es : ValList)
  | optNone
  | optSome (v : Val)
  | expOk (v : Val)
  | expErr (e : Val)
  | pair (a b : Val)
  | tup (fs : ValList)
  | var (tag : Nat) (v : Val)
inductive ValList : Type where
  | nil
  | cons (v : Val) (vs : ValList)
end

mutual
inductive Ty : Type where
  | prim (w : Nat)
  | str
  | vec (t : Ty)
  | opt (t : Ty)
  | exp (t e : Ty)
  | pair (a b : Ty)
  | tup (ts : TyList)
  | var (ts : TyList)
inductive TyList : Type where
  | nil
  | cons (t : Ty) (ts : TyList)
end

/-- Number of elements of a `ValList` (`val.size()` of the container). -/
def vllen : ValList → Nat
  | .nil => 0
  | .cons _ vs => vllen vs + 1

/-- Number of alternatives of a `TyList` (`sizeof...(Ts)` of the variant). -/
def tyLen : TyList → Nat
  | .nil => 0
  | .cons _ ts => tyLen ts + 1

/-- Outcome of a read.  `ok` carries the decoded value and the new cursor.
`ub` marks an execution with no defined result: the only way the source
reader reaches it is by calling `mp_with_index<N>(i, f)` with `i >= N`
(variant tag out of range), which violates that function's precondition
(assertion failure in debug builds, undefined behavior otherwise).  The
reader has no failure-signalling path: it never throws. -/
inductive RResult (α : Type) : Type where
  | ok (a : α)
  | ub
deriving DecidableEq

/-! ### Writer (serializer.h, `Writer::write` overloads, lines 92-229)

* trivially-copyable values: the object-representation bytes verbatim;
* `basic_string`/`basic_string_view`: `uint32_t` size then the characters;
* `vector` and other sized ranges: `uint32_t` size then the elements (for
  trivially-copyable element types the contiguous copy produces the same
  byte sequence as element-by-element writes);
* `optional`: `bool` present flag, then the value if present;
* `expected`: `bool` present flag, then the value or the error;
* `pair` / `tuple` / described aggregates: fields in declaration order;
* `variant`: `uint16_t` alternative index then the selected alternative.

The `uint32_t`/`uint16_t` casts of `val.size()` / `val.index()` are modelled
by taking the length/tag modulo nothing here — well-typedness (`HasTy`)
carries the bounds under which the casts are lossless. -/

mutual
def writeVal : Val → List Nat
  | .prim bs => bs
  | .str cs => enc32 cs.length ++ cs
  | .vec es => enc32 (vllen es) ++ writeValList es
  | .optNone => [0]
  | .optSome v => 1 :: writeVal v
  | .expOk v => 1 :: writeVal v
  | .expErr e => 0 :: writeVal e
  | .pair a b => writeVal a ++ writeVal b
  | .tup fs => writeValList fs
  | .var tag v => enc16 tag ++ writeVal v
def writeValList : ValList → List Nat
  | .nil => []
  | .cons v vs => writeVal v ++ writeValList vs
end

/-! Structural size measure used for the round-trip induction. -/
mutual
def vsize : Val → Nat
  | .prim _ => 1
  | .str _ => 1
  | .vec es => 1 + vsizeList es
  | .optNone => 1
  | .optSome v => 1 + vsize v
  | .expOk v => 1 + vsize v
  | .expErr e => 1 + vsize e
  | .pair a b => 1 + vsize a + vsize b
  | .tup fs => 1 + vsizeList fs
  | .var _ v => 1 + vsize v
def vsizeList : ValList → Nat
  | .nil => 0
  | .cons v vs => 1 + vsize v + vsizeList vs
end

/-- `Reader::read_range` element loop (`while (count--) { read(v); ... }`),
parameterized by the element reader.  The count comes from the decoded
`uint32_t` length — the loop trusts it without comparing against the bytes
remaining. -/
def readListN (rd : (Nat → Nat) → Nat → RResult (Val × Nat)) :
    Nat → (Nat → Nat) → Nat → RResult (ValList × Nat)
  | 0, _, pos => .ok (.nil, pos)
  | n + 1, mem, pos =>
    match rd mem pos with
    | .ok (v, p) =>
      match readListN rd n mem p with
      | .ok (vs, p2) => .ok (.cons v vs, p2)
      | .ub => .ub
    | .ub => .ub

/-! ### Reader (serializer.h, `Reader::read` overloads, lines 358-541)

`readVar` models the `mp_with_index<sizeof...(Ts)>(index, ...)` dispatch of
the variant read: it walks the alternative list down `tag` steps; falling off
the end is the out-of-contract call (`RResult.ub`). -/

mutual
def readVal : Ty → (Nat → Nat) → Nat → RResult (Val × Nat)
  | .prim w, mem, pos => .ok (.prim (readBytesL w mem pos), pos + w)
  | .str, mem, pos =>
    let n := dec32 mem pos
    .ok (.str (readBytesL n mem (pos + 4)), pos + 4 + n)
  | .vec t, mem, pos =>
    let n := dec32 mem pos
    match readListN (readVal t) n mem (pos + 4) with
    | .ok (es, p) => .ok (.vec es, p)
    | .ub => .ub
  | .opt t, mem, pos =>
    if mem pos == 0 then .ok (.optNone, pos + 1)
    else
      match readVal t mem (pos + 1) with
      | .ok (v, p) => .ok (.optSome v, p)
      | .ub => .ub
  | .exp t e, mem, pos =>
    if mem pos == 0 then
      match readVal e mem (pos + 1) with
      | .ok (ev, p) => .ok (.expErr ev, p)
      | .ub => .ub
    else
      match readVal t mem (pos + 1) with
      | .ok (v, p) => .ok (.expOk v, p)
      | .ub => .ub
  | .pair a b, mem, pos =>
    match readVal a mem pos with
    | .ok (va, p1) =>
      match readVal b mem p1 with
      | .ok (vb, p2) => .ok (.pair va vb, p2)
      | .ub => .ub
    | .ub => .ub
  | .tup ts, mem, pos =>
    match readTup ts mem pos with
    | .ok (fs, p) => .ok (.tup fs, p)
    | .ub => .ub
  | .var ts, mem, pos =>
    let tag := dec16 mem pos
    match readVar ts tag mem (pos + 2) with
    | .ok (v, p) => .ok (.var tag v, p)
    | .ub => .ub
def readTup : TyList → (Nat → Nat) → Nat → RResult (ValList × Nat)
  | .nil, _, pos => .ok (.nil, pos)
  | .cons t ts, mem, pos =>
    match readVal t mem pos with
    | .ok (v, p) =>
      match readTup ts mem p with
      | .ok (vs, p2) => .ok (.cons v vs, p2)
      | .ub => .ub
    | .ub => .ub
def readVar : TyList → Nat → (Nat → Nat) → Nat → RResult (Val × Nat)
  | .nil, _, _, _ => .ub
  | .cons t _, 0, mem, pos => readVal t mem pos
  | .cons _ ts, k + 1, mem, pos => readVar ts k mem pos
end

/-- `Writer` with an attached serializer state: the state is opaque to the
codec — none of the built-in write paths consult it — so the encoding is that
of `writeVal`.  The binder records that one state instance is threaded
through every writer the framework spawns. -/
def Writer.write (S : Type) (_state : S) (v : Val) : List Nat :=
  writeVal v

/-- `Reader` with an attached serializer state (opaque, see `Writer.write`). -/
def Reader.read (S : Type) (_state : S) (t : Ty) (mem : Nat → Nat) (pos : Nat) :
    RResult (Val × Nat) :=
  readVal t mem pos

/-! ### Well-typedness

`HasTy v t` says the value `v` is a value of supported type `t` that the
writer can encode losslessly: string/collection sizes fit the `uint32_t`
length cast, the variant's alternative count fits the `uint16_t` tag cast,
and the variant tag selects an existing alternative (`HasTyVar tag v ts`
simultaneously expresses `tag < tyLen ts` and that `v` has the tag-th
alternative's type). -/

mutual
inductive HasTy : Val → Ty → Prop where
  | prim {bs w} : bs.length = w → HasTy (.prim bs) (.prim w)
  | str {cs} : cs.length < 4294967296 → HasTy (.str cs) .str
  | vec {es t} : vllen es < 4294967296 → HasTyVec es t → HasTy (.vec es) (.vec t)
  | optNone {t} : HasTy .optNone (.opt t)
  | optSome {v t} : HasTy v t → HasTy (.optSome v) (.opt t)
  | expOk {v t e} : HasTy v t → HasTy (.expOk v) (.exp t e)
  | expErr {ev t e} : HasTy ev e → HasTy (.expErr ev) (.exp t e)
  | pair {a b ta tb} : HasTy a ta → HasTy b tb → HasTy (.pair a b) (.pair ta tb)
  | tup {fs ts} : HasTyTup fs ts → HasTy (.tup fs) (.tup ts)
  | var {tag v ts} : tyLen ts ≤ 65536 → HasTyVar tag v ts → HasTy (.var tag v) (.var ts)
inductive HasTyVec : ValList → Ty → Prop where
  | nil {t} : HasTyVec .nil t
  | cons {v vs t} : HasTy v t → HasTyVec vs t → HasTyVec (.cons v vs) t
inductive HasTyTup : ValList → TyList → Prop where
  | nil : HasTyTup .nil .nil
  | cons {v vs t ts} : HasTy v t → HasTyTup vs ts → HasTyTup (.cons v vs) (.cons t ts)
inductive HasTyVar : Nat → Val → TyList → Prop where
  | zero {v t ts} : HasTy v t → HasTyVar 0 v (.cons t ts)
  | succ {k v t ts} : HasTyVar k v ts → HasTyVar (k + 1) v (.cons t ts)
end

/-! ### Message framing (transport.h: `call_type`, `message_header`, `message_t`) -/

/-- The 2-bit `type` tag of the message header. -/
inductive call_type : Type where
  | request
  | void_request
  | response
  | response_error
deriving DecidableEq

/-- A wire message: the flattened `message_header` (30-bit `call_id` bitfield,
2-bit `type`, 32-bit `method_id`) plus the payload bytes. -/
structure message_t : Type where
  call_id : Nat
  type : call_type
  id : Nat
  payload : List Nat
deriving DecidableEq

/-- HRESULT `S_OK`. -/
def S_OK : Nat := 0
/-- HRESULT `E_FAIL`. -/
def E_FAIL : Nat := 0x80004005
/-- HRESULT `E_NOTIMPL`. -/
def E_NOTIMPL : Nat := 0x80004001
/-- HRESULT `E_INVALIDARG`. -/
def E_INVALIDARG : Nat := 0x80070057

/-- Outcome of the server-side dispatch step inside `execute_request`
(`this->dispatch(...)` / `this->void_dispatch(...)`): a successfully produced
result payload, a thrown `corsl::hresult_error` carrying a code (this covers
a decode failure, a user-implementation failure, and the `E_NOTIMPL` thrown
for an unknown method id), or any other thrown exception (`catch (...)`). -/
inductive dispatch_outcome : Type where
  | success (result : List Nat)
  | hresult_thrown (hr : Nat)
  | other_thrown
deriving DecidableEq

/-- Model of `connection::execute_request` (connection.h lines 258-309): the
list of reply messages the handler pushes onto the write queue, in order.

* With a server marshaller, the request is dispatched.  A non-void request
  that succeeds pushes a `response` carrying the result (line 275); a thrown
  `hresult_error` sets `hr` to its code, any other exception sets `E_FAIL`.
* Without a server marshaller, `hr = E_INVALIDARG`.
* Afterwards (lines 292-301), if the scope is not cancelled and the message
  is not a void request, a `response_error` carrying the 4 bytes of `hr` is
  pushed — the source does not test whether `hr` actually signals a failure,
  so this push also happens on the success path. -/
def execute_request (has_server : Bool) (msg : message_t)
    (outcome : dispatch_outcome) (cancelled : Bool) : List message_t :=
  let step : Nat × List message_t :=
    if has_server then
      match outcome with
      | .success r =>
        if msg.type = .void_request then (S_OK, [])
        else (S_OK, [{ call_id := msg.call_id, type := .response, id := msg.id, payload := r }])
      | .hresult_thrown hr => (hr, [])
      | .other_thrown => (E_FAIL, [])
    else (E_INVALIDARG, [])
  if ¬cancelled ∧ msg.type ≠ .void_request then
    step.2 ++
      [{ call_id := msg.call_id, type := .response_error, id := msg.id,
         payload := enc32 step.1 }]
  else step.2

/-! ### Connection state (connection.h)

`completions` models `std::map<uint32_t, corsl::promise<payload_t>*>`: an
association from the **untruncated** 32-bit call counter value (the key type
is `uint32_t` and `do_call` inserts `call_id` before any narrowing) to the
caller's one-shot slot, identified here by a number.  `cancelled` models
`cancel.is_cancelled()` of the connection's `corsl::cancellation_source`. -/

/-- What a pending caller's one-shot slot observes. -/
inductive slot_outcome : Type where
  | value (payload : List Nat)
  | hresult (hr : Nat)
  | op_cancelled
deriving DecidableEq

/-- Connection state: the fields of `details::connection` the claims touch. -/
structure conn_state : Type where
  running : Bool
  cancelled : Bool
  transport : Bool
  write_queue : List message_t
  completions : List (Nat × Nat)
  last_call_id : Nat
deriving DecidableEq

/-- The 30-bit `call_id` bitfield of `message_header`: initializing it from a
`uint32_t` stores the value modulo `2^30`. -/
def wire_call_id (c : Nat) : Nat := c % 1073741824

/-- Model of `connection::do_call` (connection.h lines 394-408).  Creating the
cancellation token on a cancelled scope throws `corsl::operation_cancelled`;
otherwise the 32-bit counter is atomically post-incremented, the promise is
registered in `completions` under the **untruncated** counter value, and a
`request` whose header carries the counter truncated to the 30-bit bitfield
is pushed onto the write queue. -/
def do_call (s : conn_state) (slot : Nat) (name : Nat) (payload : List Nat) :
    Except slot_outcome conn_state :=
  if s.cancelled then .error .op_cancelled
  else
    let call_id := s.last_call_id % 4294967296
    .ok { s with
      last_call_id := (s.last_call_id + 1) % 4294967296,
      completions := s.completions ++ [(call_id, slot)],
      write_queue := s.write_queue ++
        [{ call_id := wire_call_id call_id, type := .request, id := name, payload := payload }] }

/-- Model of `connection::do_void_call` (connection.h lines 410-419): if the
scope is cancelled, `corsl::operation_cancelled` is thrown; otherwise a
`void_request` is pushed onto the write queue and the call returns. -/
def do_void_call (s : conn_state) (name : Nat) (payload : List Nat) :
    Except slot_outcome conn_state :=
  if s.cancelled then .error .op_cancelled
  else
    let call_id := s.last_call_id % 4294967296
    .ok { s with
      last_call_id := (s.last_call_id + 1) % 4294967296,
      write_queue := s.write_queue ++
        [{ call_id := wire_call_id call_id, type := .void_request, id := name, payload := payload }] }

/-- Model of the reader task's reply branch (connection.h lines 208-233): on a
`response`/`response_error`, look the header's call-id up in `completions`;
if present, erase the entry and complete the slot — with the payload for a
`response`, with the decoded 4-byte code for a well-formed `response_error`,
or with `E_FAIL` if the error payload is malformed.  If the call-id is not a
key of the table, the message is dropped.  Returns the new state and the
completion events produced. -/
def handle_reply (s : conn_state) (msg : message_t) :
    conn_state × List (Nat × slot_outcome) :=
  match s.completions.find? (fun e => e.1 == msg.call_id) with
  | some e =>
    let s' := { s with completions := s.completions.eraseP (fun e2 => e2.1 == msg.call_id) }
    if msg.type = .response_error then
      if msg.payload.length = 4 then (s', [(e.2, .hresult (dec32_list msg.payload))])
      else (s', [(e.2, .hresult E_FAIL)])
    else (s', [(e.2, .value msg.payload)])
  | none => (s, [])

/-- Model of `connection::stop` (connection.h lines 375-392).  On a running
connection it cancels the scope, joins both tasks, completes every pending
call with `corsl::operation_cancelled`, clears the table, releases the
transport, **renews the cancellation source** (`cancel = {};`, so the
returned state's `cancelled` is `false` again) and clears `running`.  The
write queue is not cleared.  On a non-running connection it is a no-op.
Returns the new state and the completion events delivered to pending
callers. -/
def stop (s : conn_state) : conn_state × List (Nat × slot_outcome) :=
  if s.running then
    ({ s with running := false, cancelled := false, transport := false, completions := [] },
     s.completions.map fun e => (e.2, slot_outcome.op_cancelled))
  else (s, [])

/-! ### Server marshaller (marshal.h) -/

/-- Model of `build_method_map` (marshal.h lines 393-405): the array of
`(method_id, ordinal)` pairs for the described interface's methods in
declaration order, sorted by id. -/
def build_method_map (names : List Nat) : List (Nat × Nat) :=
  ((List.range names.length).map fun i => (names.getD i 0, i)).mergeSort
    fun a b => a.1 ≤ b.1

/-- Index returned by `sr::lower_bound(static_method_map, name, ...)`: the
first position whose key is not less than `name` (the standard library's
documented postcondition on a range sorted by the projection). -/
def lower_bound_idx (name : Nat) : List (Nat × Nat) → Nat
  | [] => 0
  | e :: rest => if e.1 < name then lower_bound_idx name rest + 1 else 0

/-- Model of `marshal_server::dispatch` (marshal.h lines 427-469).  The
interface is a list of `(method_id, stored-arguments tuple type)` pairs in
declaration order.  The sorted method map is binary-searched; if the id is
absent, `corsl::throw_error(E_NOTIMPL)` (the `.error` case); otherwise the
found entry's ordinal selects the method, whose stored-arguments tuple is
decoded from the payload with `Reader{data, state}` and handed to the
implementation — the result is the invoked ordinal together with the decoded
argument tuple. -/
def dispatch (iface : List (Nat × Ty)) (name : Nat) (mem : Nat → Nat) :
    Except Nat (Nat × RResult (Val × Nat)) :=
  let m := build_method_map (iface.map Prod.fst)
  let i := lower_bound_idx name m
  match m[i]? with
  | some e =>
    if e.1 = name then .ok (e.2, readVal (iface.getD e.2 (0, .tup .nil)).2 mem 0)
    else .error E_NOTIMPL
  | none => .error E_NOTIMPL

/-! ### Method identifier (method_id.h) -/

/-- Model of `static_cast<uint32_t>(static_cast<char>(c))` for an input byte:
`char` is signed on the source's platform, so bytes at 128 and above would be
sign-extended.  Method names are ASCII, where the cast is the identity. -/
def sext_char (c : Nat) : Nat :=
  if c % 256 < 128 then c % 256 else 4294967168 + c % 256

/-- Model of `fnv::fnv_hash` (method_id.h lines 48-62): FNV-1a over the
name's characters with 32-bit wraparound arithmetic. -/
def fnv_hash (text : List Nat) : Nat :=
  text.foldl (fun val c => (val ^^^ sext_char c) * 16777619 % 4294967296) 2166136261

/-- Model of `get_method_id` (marshal.h lines 78-82): the method identifier
is the FNV-1a hash of the method's name. -/
def get_method_id (name : List Nat) : Nat :=
  fnv_hash name

/-- FNV-1a as worded by the specification: initial basis `0x811C9DC5`, prime
`0x01000193`; for each byte the accumulator is first XORed with the byte and
then multiplied by the prime, with 32-bit wraparound.  Stated independently
of the source so the two can be compared. -/
def fnv1a_spec (bytes : List Nat) : Nat :=
  bytes.foldl (fun h b => (h ^^^ b) * 0x01000193 % 4294967296) 0x811C9DC5

/-! ## Basic properties of the byte-level helpers -/

theorem length_enc32 (n : Nat) : (enc32 n).length = 4 := rfl

theorem length_enc16 (n : Nat) : (enc16 n).length = 2 := rfl

theorem fits_cons {mem : Nat → Nat} {pos : Nat} {b : Nat} {bs : List Nat} :
    fits mem pos (b :: bs) ↔ mem pos = b ∧ fits mem (pos + 1) bs := by
  constructor
  · intro h
    refine ⟨by simpa using h 0 (by simp), fun i hi => ?_⟩
    have := h (i + 1) (by simpa using hi)
    simpa [Nat.add_assoc, Nat.add_comm 1 i] using this
  · rintro ⟨h0, h1⟩ i hi
    cases i with
    | zero => simpa using h0
    | succ j =>
      have := h1 j (by simpa using hi)
      simpa [Nat.add_assoc, Nat.add_comm 1 j] using this

theorem fits_append {mem : Nat → Nat} {pos : Nat} {as bs : List Nat} :
    fits mem pos (as ++ bs) ↔ fits mem pos as ∧ fits mem (pos + as.length) bs := by
  induction as generalizing pos with
  | nil => simp [fits]
  | cons a as ih =>
    simp only [List.cons_append, fits_cons, ih, List.length_cons]
    constructor
    · rintro ⟨h0, h1, h2⟩
      exact ⟨⟨h0, h1⟩, by simpa [Nat.add_assoc, Nat.add_comm 1 as.length] using h2⟩
    · rintro ⟨⟨h0, h1⟩, h2⟩
      exact ⟨h0, h1, by simpa [Nat.add_assoc, Nat.add_comm 1 as.length] using h2⟩

theorem readBytesL_succ (w : Nat) (mem : Nat → Nat) (pos : Nat) :
    readBytesL (w + 1) mem pos = mem pos :: readBytesL w mem (pos + 1) := by
  simp only [readBytesL, List.range_succ_eq_map, List.map_cons, List.map_map, Nat.add_zero]
  refine congrArg _ ?_
  refine List.map_congr_left fun j _ => ?_
  simp only [Function.comp_apply]
  congr 1
  omega

theorem readBytesL_fits {bs : List Nat} {mem : Nat → Nat} {pos : Nat}
    (h : fits mem pos bs) : readBytesL bs.length mem pos = bs := by
  induction bs generalizing pos with
  | nil => rfl
  | cons b bs ih =>
    rw [fits_cons] at h
    rw [List.length_cons, readBytesL_succ, h.1, ih h.2]

theorem dec32_fits {mem : Nat → Nat} {pos n : Nat} (h : fits mem pos (enc32 n)) :
    dec32 mem pos = n % 4294967296 := by
  have h0 := h 0 (by norm_num [enc32])
  have h1 := h 1 (by norm_num [enc32])
  have h2 := h 2 (by norm_num [enc32])
  have h3 := h 3 (by norm_num [enc32])
  simp only [enc32, List.getD_cons_zero, List.getD_cons_succ, Nat.add_zero] at h0 h1 h2 h3
  simp only [dec32]
  rw [h0, h1, h2, h3]
  omega

theorem dec16_fits {mem : Nat → Nat} {pos n : Nat} (h : fits mem pos (enc16 n)) :
    dec16 mem pos = n % 65536 := by
  have h0 := h 0 (by norm_num [enc16])
  have h1 := h 1 (by norm_num [enc16])
  simp only [enc16, List.getD_cons_zero, List.getD_cons_succ, Nat.add_zero] at h0 h1
  simp only [dec16]
  rw [h0, h1]
  omega

/-! ## Claims about `execute_request` (C1, C4) -/

/-- Claim C1: the spec says at most one reply message (`Response` or
`ResponseError`) is produced and enqueued per received `Request`.  The code
violates this: on a successful non-void dispatch, `execute_request`
(connection.h lines 258-309) pushes the `response` at line 275 and then,
because the push at lines 295-300 is guarded only by "not cancelled" and
"not a void request" — not by `hr` carrying a failure — it also pushes a
`response_error` carrying `S_OK`.  Evaluating the model at a concrete
successful request shows two reply messages for call-id 7 on the write
queue, contradicting the comment at line 294 ("Error occurred, ...") and the
spec. -/
theorem execute_request_two_replies_on_success :
    execute_request true { call_id := 7, type := .request, id := 99, payload := [] }
        (.success [1, 2]) false
      = [{ call_id := 7, type := .response, id := 99, payload := [1, 2] },
         { call_id := 7, type := .response_error, id := 99, payload := enc32 S_OK }] ∧
    (execute_request true { call_id := 7, type := .request, id := 99, payload := [] }
        (.success [1, 2]) false).length = 2 := by
  exact ⟨rfl, rfl⟩

/-- Claim C4: for every inbound `VoidRequest` the connection produces zero
outbound reply messages, whatever the server-side outcome: successful
synchronous invocation, a thrown `hresult_error` (covering decode failures,
implementation failures and the `E_NOTIMPL` of an unknown method id), any
other exception, a connection without a server marshaller, and independently
of the cancellation flag. -/
theorem void_request_produces_no_reply (has_server : Bool) (cid mid : Nat)
    (payload : List Nat) (outcome : dispatch_outcome) (cancelled : Bool) :
    execute_request has_server
      { call_id := cid, type := .void_request, id := mid, payload := payload }
      outcome cancelled = [] := by
  cases has_server <;> cases outcome <;> cases cancelled <;> simp [execute_request]

/-! ## Claims about call-id minting and reply matching (C3) -/

/-- Claim C3: the spec says call identifiers occupy 30 bits of the header and
that matching continues to function after the counter passes `2^30`.  The
code violates the second part: `do_call` registers the pending slot under the
**untruncated** 32-bit counter value (`completions.emplace(call_id, ...)`,
connection.h line 404) while the wire header carries the counter narrowed to
the 30-bit bitfield; the peer echoes the 30-bit value, and the reader's
`completions.find(message.call_id)` then misses.  Evaluating the model: with
the counter below `2^30` (here 7) the issued call's reply is delivered to
slot 77; at counter `2^30` the request goes out with wire call-id 0, the
table holds key `2^30`, and the echoed reply resolves nothing — the table
still holds the pending entry and no completion event is produced. -/
theorem call_id_wrap_loses_replies :
    (do_call { running := true, cancelled := false, transport := true, write_queue := [],
               completions := [], last_call_id := 7 } 77 99 []
      = .ok { running := true, cancelled := false, transport := true,
              write_queue := [{ call_id := 7, type := .request, id := 99, payload := [] }],
              completions := [(7, 77)], last_call_id := 8 }) ∧
    (handle_reply
        { running := true, cancelled := false, transport := true,
          write_queue := [{ call_id := 7, type := .request, id := 99, payload := [] }],
          completions := [(7, 77)], last_call_id := 8 }
        { call_id := 7, type := .response, id := 99, payload := [5] }
      = ({ running := true, cancelled := false, transport := true,
           write_queue := [{ call_id := 7, type := .request, id := 99, payload := [] }],
           completions := [], last_call_id := 8 },
         [(77, .value [5])])) ∧
    (do_call { running := true, cancelled := false, transport := true, write_queue := [],
               completions := [], last_call_id := 1073741824 } 77 99 []
      = .ok { running := true, cancelled := false, transport := true,
              write_queue := [{ call_id := 0, type := .request, id := 99, payload := [] }],
              completions := [(1073741824, 77)], last_call_id := 1073741825 }) ∧
    (handle_reply
        { running := true, cancelled := false, transport := true,
          write_queue := [{ call_id := 0, type := .request, id := 99, payload := [] }],
          completions := [(1073741824, 77)], last_call_id := 1073741825 }
        { call_id := 0, type := .response, id := 99, payload := [5] }
      = ({ running := true, cancelled := false, transport := true,
           write_queue := [{ call_id := 0, type := .request, id := 99, payload := [] }],
           completions := [(1073741824, 77)], last_call_id := 1073741825 },
         [])) := by
  refine ⟨rfl, rfl, rfl, rfl⟩

/-! ## Claims about the connection lifecycle (C5, C6) -/

/-- Claim C5 counterexample: the spec says every stub call issued after
`stop()` has completed fails with a cancellation error rather than being
enqueued or silently lost.  But `stop` ends with `cancel = {};`
(connection.h line 389), renewing the cancellation source, so after `stop`
returns `cancel.is_cancelled()` is `false` again: `do_void_call` passes its
cancellation check and pushes the `void_request` onto the (no longer
serviced) write queue, and `do_call` likewise proceeds instead of failing. -/
theorem stub_call_after_stop_enqueued :
    (stop { running := true, cancelled := false, transport := true, write_queue := [],
            completions := [], last_call_id := 5 }).1.cancelled = false ∧
    do_void_call
        (stop { running := true, cancelled := false, transport := true,
                write_queue := [], completions := [], last_call_id := 5 }).1 99 []
      = .ok { running := false, cancelled := false, transport := false,
              write_queue := [{ call_id := 5, type := .void_request, id := 99, payload := [] }],
              completions := [], last_call_id := 6 } ∧
    do_void_call
        (stop { running := true, cancelled := false, transport := true,
                write_queue := [], completions := [], last_call_id := 5 }).1 99 []
      ≠ .error .op_cancelled ∧
    do_call
        (stop { running := true, cancelled := false, transport := true,
                write_queue := [], completions := [], last_call_id := 5 }).1 77 99 []
      ≠ .error .op_cancelled := by
  refine ⟨rfl, rfl, by simp [stop, do_void_call], by simp [stop, do_call]⟩

/-- Claim C5 (amended): a stub call issued while the connection's cancellation
scope is cancelled — which is the situation from `cancel.cancel()` inside
`stop` until `stop` renews the scope — fails by throwing
`corsl::operation_cancelled`; but once `stop()` has completed, the scope has
been renewed (`cancelled = false` in the resulting state), so a void stub
call does not fail: it is enqueued on the write queue, which no writer task
services any more. -/
theorem stub_call_cancellation (s : conn_state) (slot name : Nat) (p : List Nat) :
    (s.cancelled = true →
      do_void_call s name p = .error .op_cancelled ∧
      do_call s slot name p = .error .op_cancelled) ∧
    (s.running = true →
      (stop s).1.cancelled = false ∧
      do_void_call (stop s).1 name p
        = .ok { running := false, cancelled := false, transport := false,
                write_queue := s.write_queue ++
                  [{ call_id := wire_call_id (s.last_call_id % 4294967296),
                     type := .void_request, id := name, payload := p }],
                completions := [],
                last_call_id := (s.last_call_id + 1) % 4294967296 }) := by
  constructor
  · intro h
    exact ⟨by simp [do_void_call, h], by simp [do_call, h]⟩
  · intro h
    refine ⟨by simp [stop, h], ?_⟩
    simp [stop, h, do_void_call]

/-- Witness for `stub_call_cancellation` at a concrete cancelled state and a
concrete running state. -/
theorem stub_call_cancellation_witness :
    do_void_call
        { running := true, cancelled := true, transport := true, write_queue := [],
          completions := [], last_call_id := 0 } 9 [] = .error .op_cancelled ∧
    do_void_call
        (stop { running := true, cancelled := false, transport := true, write_queue := [],
                completions := [], last_call_id := 3 }).1 9 [4]
      = .ok { running := false, cancelled := false, transport := false,
              write_queue := [{ call_id := 3, type := .void_request, id := 9, payload := [4] }],
              completions := [], last_call_id := 4 } :=
  ⟨((stub_call_cancellation _ 0 9 []).1 rfl).1,
   ((stub_call_cancellation
      { running := true, cancelled := false, transport := true, write_queue := [],
        completions := [], last_call_id := 3 } 0 9 [4]).2 rfl).2⟩

theorem cancel_events_absent {y : Nat} :
    ∀ slots : List Nat, y ∉ slots →
      (((slots.map fun z => (z, slot_outcome.op_cancelled)).filter
        fun x => x = (y, slot_outcome.op_cancelled)).length = 0) := by
  intro slots
  induction slots with
  | nil => intro _; rfl
  | cons a rest ih =>
    intro hy
    have hay : ¬a = y := fun hc => hy (hc ▸ List.mem_cons_self a rest)
    have hrest : y ∉ rest := fun hc => hy (List.mem_cons_of_mem a hc)
    simp [List.filter_cons, hay, ih hrest]

theorem cancel_events_unique :
    ∀ slots : List Nat, slots.Nodup → ∀ y ∈ slots,
      (((slots.map fun z => (z, slot_outcome.op_cancelled)).filter
        fun x => x = (y, slot_outcome.op_cancelled)).length = 1) := by
  intro slots
  induction slots with
  | nil => intro _ y hy; cases hy
  | cons a rest ih =>
    intro hnd y hy
    have hnotin : a ∉ rest := (List.nodup_cons.mp hnd).1
    have hndrest : rest.Nodup := (List.nodup_cons.mp hnd).2
    rcases List.mem_cons.mp hy with hya | hyr
    · subst hya
      simp [List.filter_cons, cancel_events_absent rest hnotin]
    · have hay : ¬a = y := fun hc => hnotin (hc ▸ hyr)
      simp [List.filter_cons, hay, ih hndrest y hyr]

/-- Claim C6: when `stop()` returns on a running connection, the pending-call
table is empty, and each caller that was pending at the moment of stop
observes exactly one completion, which is `corsl::operation_cancelled`
(connection.h lines 382-387): the completion events are exactly one
`op_cancelled` per table entry, and — the slots being distinct one-shot
promises — each pending slot receives exactly one event (the number of
events addressed to it is exactly 1, not 0 and not more). -/
theorem stop_completes_pending_once (s : conn_state) (h : s.running = true) :
    (stop s).1.completions = [] ∧
    (stop s).2 = (s.completions.map fun e => (e.2, slot_outcome.op_cancelled)) ∧
    ((s.completions.map Prod.snd).Nodup →
      ∀ e ∈ s.completions,
        (((stop s).2.filter fun x => x = (e.2, slot_outcome.op_cancelled)).length = 1)) := by
  refine ⟨by simp [stop, h], by simp [stop, h], ?_⟩
  intro hnd e he
  have hev : (stop s).2 = (s.completions.map fun e => (e.2, slot_outcome.op_cancelled)) := by
    simp [stop, h]
  rw [hev]
  have hmap : (s.completions.map fun e => (e.2, slot_outcome.op_cancelled))
      = (s.completions.map Prod.snd).map fun y => (y, slot_outcome.op_cancelled) := by
    simp [List.map_map]
  rw [hmap]
  exact cancel_events_unique _ hnd e.2 (List.mem_map_of_mem _ he)

/-- Witness for `stop_completes_pending_once` at a concrete running state
with two pending calls. -/
theorem stop_completes_pending_once_witness :
    (stop { running := true, cancelled := false, transport := true, write_queue := [],
            completions := [(0, 10), (5, 11)], last_call_id := 2 }).1.completions = [] ∧
    (((stop { running := true, cancelled := false, transport := true, write_queue := [],
              completions := [(0, 10), (5, 11)], last_call_id := 2 }).2.filter
        fun x => x = (10, slot_outcome.op_cancelled)).length = 1) := by
  have h := stop_completes_pending_once
    { running := true, cancelled := false, transport := true, write_queue := [],
      completions := [(0, 10), (5, 11)], last_call_id := 2 } rfl
  exact ⟨h.1, h.2.2 (by decide) (0, 10) (by decide)⟩

/-! ## Claim about the method identifier hash (C8) -/

theorem sext_char_ascii {c : Nat} (h : c < 128) : sext_char c = c := by
  have h256 : c % 256 = c := Nat.mod_eq_of_lt (by omega)
  simp [sext_char, h256, h]

/-- Claim C8: for every (ASCII) method name, the 32-bit method identifier
computed by `get_method_id` / `fnv::fnv_hash` equals the FNV-1a hash as the
spec words it: initial basis `0x811C9DC5`, prime `0x01000193`, and for each
byte the accumulator is XORed with the byte and then multiplied by the prime
with 32-bit wraparound.  (The source casts each character through `char`
first, which sign-extends bytes ≥ 128; method names are ASCII, where the
cast is the identity.) -/
theorem method_id_is_fnv1a (name : List Nat) (h : ∀ c ∈ name, c < 128) :
    get_method_id name = fnv1a_spec name := by
  unfold get_method_id fnv_hash fnv1a_spec
  suffices hgen : ∀ (l : List Nat) (acc : Nat), (∀ c ∈ l, c < 128) →
      List.foldl (fun val c => (val ^^^ sext_char c) * 16777619 % 4294967296) acc l
        = List.foldl (fun hh b => (hh ^^^ b) * 16777619 % 4294967296) acc l by
    exact hgen name 2166136261 h
  intro l
  induction l with
  | nil => intro acc _; simp
  | cons c cs ih =>
    intro acc hl
    have hc : c < 128 := hl c (by simp)
    simp only [List.foldl_cons, sext_char_ascii hc]
    exact ih _ fun d hd => hl d (by simp [hd])

set_option maxRecDepth 4096 in
/-- Witness for `method_id_is_fnv1a` at the concrete name "abc"
(bytes 97, 98, 99); both sides evaluate to the well-known FNV-1a test value
`0x1A47E90B`. -/
theorem method_id_is_fnv1a_witness :
    get_method_id [97, 98, 99] = fnv1a_spec [97, 98, 99] ∧
    get_method_id [97, 98, 99] = 0x1A47E90B :=
  ⟨method_id_is_fnv1a [97, 98, 99] (by decide), by decide⟩

/-! ## Round-trip of the codec (C2), variant tags (C9), missing bounds checks (C10) -/

theorem one_le_vsize : ∀ v : Val, 1 ≤ vsize v := by
  intro v
  cases v <;> simp only [vsize] <;> omega

theorem hasTyVar_lt : ∀ (tag : Nat) {v : Val} {ts : TyList},
    HasTyVar tag v ts → tag < tyLen ts := by
  intro tag
  induction tag with
  | zero =>
    intro v ts h
    cases h with
    | zero _ => simp [tyLen]
  | succ k ihk =>
    intro v ts h
    cases h with
    | succ h' =>
      have := ihk h'
      simp only [tyLen]
      omega

theorem readVar_oob : ∀ (k : Nat) (ts : TyList), tyLen ts ≤ k →
    ∀ (mem : Nat → Nat) (pos : Nat), readVar ts k mem pos = .ub := by
  intro k
  induction k with
  | zero =>
    intro ts h mem pos
    cases ts with
    | nil => simp [readVar]
    | cons t ts' => simp [tyLen] at h
  | succ k ihk =>
    intro ts h mem pos
    cases ts with
    | nil => simp [readVar]
    | cons t ts' =>
      simp only [readVar]
      exact ihk ts' (by simp only [tyLen] at h; omega) mem pos

theorem readListN_write (n : Nat)
    (ih : ∀ (v : Val) (t : Ty), vsize v ≤ n → HasTy v t →
      ∀ (mem : Nat → Nat) (pos : Nat), fits mem pos (writeVal v) →
        readVal t mem pos = .ok (v, pos + (writeVal v).length)) :
    ∀ (m : Nat) (es : ValList) (t : Ty), vsizeList es ≤ m → vsizeList es ≤ n →
      HasTyVec es t → ∀ (mem : Nat → Nat) (pos : Nat), fits mem pos (writeValList es) →
      readListN (readVal t) (vllen es) mem pos = .ok (es, pos + (writeValList es).length) := by
  intro m
  induction m with
  | zero =>
    intro es t hm _ _ mem pos _
    cases es with
    | nil => simp [readListN, writeValList, vllen]
    | cons v vs => simp only [vsizeList] at hm; omega
  | succ m ihm =>
    intro es t hm hn hty mem pos hf
    cases es with
    | nil => simp [readListN, writeValList, vllen]
    | cons v vs =>
      cases hty with
      | cons hv hvs =>
        simp only [writeValList] at hf
        rw [fits_append] at hf
        have h1 : vsize v ≤ n := by simp only [vsizeList] at hn; omega
        have h2 : vsizeList vs ≤ m := by simp only [vsizeList] at hm; omega
        have h3 : vsizeList vs ≤ n := by simp only [vsizeList] at hn; omega
        have hr1 := ih v t h1 hv mem pos hf.1
        have hr2 := ihm vs t h2 h3 hvs mem (pos + (writeVal v).length) hf.2
        simp only [vllen, readListN, hr1, hr2, writeValList, List.length_append]
        simp [Nat.add_assoc]

theorem readTup_write (n : Nat)
    (ih : ∀ (v : Val) (t : Ty), vsize v ≤ n → HasTy v t →
      ∀ (mem : Nat → Nat) (pos : Nat), fits mem pos (writeVal v) →
        readVal t mem pos = .ok (v, pos + (writeVal v).length)) :
    ∀ (m : Nat) (fs : ValList) (ts : TyList), vsizeList fs ≤ m → vsizeList fs ≤ n →
      HasTyTup fs ts → ∀ (mem : Nat → Nat) (pos : Nat), fits mem pos (writeValList fs) →
      readTup ts mem pos = .ok (fs, pos + (writeValList fs).length) := by
  intro m
  induction m with
  | zero =>
    intro fs ts hm _ hty mem pos _
    cases hty with
    | nil => simp [readTup, writeValList]
    | cons _ _ => simp only [vsizeList] at hm; omega
  | succ m ihm =>
    intro fs ts hm hn hty mem pos hf
    cases hty with
    | nil => simp [readTup, writeValList]
    | cons hv hvs =>
      rename_i v vs t ts'
      simp only [writeValList] at hf
      rw [fits_append] at hf
      have h1 : vsize v ≤ n := by simp only [vsizeList] at hn; omega
      have h2 : vsizeList vs ≤ m := by simp only [vsizeList] at hm; omega
      have h3 : vsizeList vs ≤ n := by simp only [vsizeList] at hn; omega
      have hr1 := ih v t h1 hv mem pos hf.1
      have hr2 := ihm vs ts' h2 h3 hvs mem (pos + (writeVal v).length) hf.2
      simp only [readTup, hr1, hr2, writeValList, List.length_append]
      simp [Nat.add_assoc]

theorem readVar_write (n : Nat)
    (ih : ∀ (v : Val) (t : Ty), vsize v ≤ n → HasTy v t →
      ∀ (mem : Nat → Nat) (pos : Nat), fits mem pos (writeVal v) →
        readVal t mem pos = .ok (v, pos + (writeVal v).length)) :
    ∀ (tag : Nat) (v : Val) (ts : TyList), HasTyVar tag v ts → vsize v ≤ n →
      ∀ (mem : Nat → Nat) (pos : Nat), fits mem pos (writeVal v) →
      readVar ts tag mem pos = .ok (v, pos + (writeVal v).length) := by
  intro tag
  induction tag with
  | zero =>
    intro v ts h hn mem pos hf
    cases h with
    | zero hv =>
      simp only [readVar]
      exact ih v _ hn hv mem pos hf
  | succ k ihk =>
    intro v ts h hn mem pos hf
    cases h with
    | succ h' =>
      simp only [readVar]
      exact ihk v _ h' hn mem pos hf

theorem read_write_bounded (n : Nat) :
    ∀ (v : Val) (t : Ty), vsize v ≤ n → HasTy v t →
      ∀ (mem : Nat → Nat) (pos : Nat), fits mem pos (writeVal v) →
      readVal t mem pos = .ok (v, pos + (writeVal v).length) := by
  induction n with
  | zero =>
    intro v t h0 _ _ _ _
    have := one_le_vsize v
    omega
  | succ n ihn =>
    intro v t hle hty mem pos hf
    cases hty with
    | prim hlen =>
      simp only [writeVal] at hf ⊢
      subst hlen
      simp only [readVal, readBytesL_fits hf]
    | str hlen =>
      rename_i cs
      simp only [writeVal] at hf ⊢
      rw [fits_append] at hf
      have hdec : dec32 mem pos = cs.length := by
        rw [dec32_fits hf.1, Nat.mod_eq_of_lt hlen]
      have hfc : fits mem (pos + 4) cs := by simpa [length_enc32] using hf.2
      simp only [readVal, hdec, readBytesL_fits hfc, List.length_append, length_enc32]
      simp [enc32, Nat.add_assoc]
    | vec hlen hvec =>
      rename_i es t'
      simp only [writeVal] at hf ⊢
      rw [fits_append] at hf
      have hdec : dec32 mem pos = vllen es := by
        rw [dec32_fits hf.1, Nat.mod_eq_of_lt hlen]
      have h1 : vsizeList es ≤ n := by simp only [vsize] at hle; omega
      have hlist := readListN_write n ihn (vsizeList es) es t' le_rfl h1 hvec mem (pos + 4)
        (by simpa [length_enc32] using hf.2)
      simp only [readVal, hdec, hlist, List.length_append, length_enc32]
      simp [enc32, Nat.add_assoc]
    | optNone =>
      have hmem : mem pos = 0 := by simpa using (fits_cons.mp hf).1
      simp only [writeVal]
      simp [readVal, hmem]
    | optSome hv =>
      rename_i v' t'
      simp only [writeVal] at hf ⊢
      have hmem : mem pos = 1 := (fits_cons.mp hf).1
      have hfv := (fits_cons.mp hf).2
      have h1 : vsize v' ≤ n := by simp only [vsize] at hle; omega
      have hr := ihn v' t' h1 hv mem (pos + 1) hfv
      simp only [readVal, hmem, hr]
      simp [Nat.add_assoc, Nat.add_comm 1]
    | expOk hv =>
      rename_i v' t' e'
      simp only [writeVal] at hf ⊢
      have hmem : mem pos = 1 := (fits_cons.mp hf).1
      have hfv := (fits_cons.mp hf).2
      have h1 : vsize v' ≤ n := by simp only [vsize] at hle; omega
      have hr := ihn v' t' h1 hv mem (pos + 1) hfv
      simp only [readVal, hmem, hr]
      simp [Nat.add_assoc, Nat.add_comm 1]
    | expErr he =>
      rename_i ev t' e'
      simp only [writeVal] at hf ⊢
      have hmem : mem pos = 0 := (fits_cons.mp hf).1
      have hfv := (fits_cons.mp hf).2
      have h1 : vsize ev ≤ n := by simp only [vsize] at hle; omega
      have hr := ihn ev e' h1 he mem (pos + 1) hfv
      simp only [readVal, hmem, hr]
      simp [Nat.add_assoc, Nat.add_comm 1]
    | pair hva hvb =>
      rename_i a b ta tb
      simp only [writeVal] at hf ⊢
      rw [fits_append] at hf
      have h1 : vsize a ≤ n := by simp only [vsize] at hle; omega
      have h2 : vsize b ≤ n := by simp only [vsize] at hle; omega
      have hra := ihn a ta h1 hva mem pos hf.1
      have hrb := ihn b tb h2 hvb mem (pos + (writeVal a).length) hf.2
      simp only [readVal, hra, hrb, List.length_append]
      simp [Nat.add_assoc]
    | tup htup =>
      rename_i fs ts
      simp only [writeVal] at hf ⊢
      have h1 : vsizeList fs ≤ n := by simp only [vsize] at hle; omega
      have hlist := readTup_write n ihn (vsizeList fs) fs ts le_rfl h1 htup mem pos hf
      simp only [readVal, hlist]
    | var hlen hvar =>
      rename_i tag v' ts
      simp only [writeVal] at hf ⊢
      rw [fits_append] at hf
      have htag := hasTyVar_lt tag hvar
      have hdec : dec16 mem pos = tag := by
        rw [dec16_fits hf.1, Nat.mod_eq_of_lt (by omega)]
      have h1 : vsize v' ≤ n := by simp only [vsize] at hle; omega
      have hv := readVar_write n ihn tag v' ts hvar h1 mem (pos + 2)
        (by simpa [length_enc16] using hf.2)
      simp only [readVal, hdec, hv, List.length_append, length_enc16]
      simp [enc16, Nat.add_assoc]

theorem fits_listMem (bs rest : List Nat) (junk : Nat → Nat) :
    fits (listMem (bs ++ rest) junk) 0 bs := by
  intro i hi
  have hlt : i < (bs ++ rest).length := by
    simp only [List.length_append]
    omega
  simp only [Nat.zero_add, listMem, hlt, dif_pos]
  rw [List.get_eq_getElem, List.getElem_append_left hi, List.getD_eq_getElem]

/-- Claim C2: for every value `v` of a supported type `t` (trivially-copyable
scalars, strings/string views, vectors and ranges, pairs, tuples and
described aggregates, optionals, expected, variants, and nested combinations
— the `Ty`/`Val` universe) and for any serializer state `S`, decoding with a
`Reader` the bytes produced by a `Writer` encoding `v` yields `v` again,
consuming exactly the written bytes in order (the final cursor is the length
of the encoding, whatever bytes follow it). -/
theorem serializer_round_trip (S : Type) (st : S) (v : Val) (t : Ty) (h : HasTy v t)
    (junk : Nat → Nat) (rest : List Nat) :
    Reader.read S st t (listMem (Writer.write S st v ++ rest) junk) 0
      = .ok (v, (Writer.write S st v).length) := by
  have hrw := read_write_bounded (vsize v) v t le_rfl h
    (listMem (writeVal v ++ rest) junk) 0 (fits_listMem _ _ _)
  simpa [Reader.read, Writer.write] using hrw

/-- Witness for `serializer_round_trip`: the pair (one-byte scalar 7,
string "hi") encodes to 7 bytes and decodes back to itself with the cursor
at 7, past bytes `[9]` left untouched. -/
theorem serializer_round_trip_witness :
    Reader.read Unit () (.pair (.prim 1) .str)
      (listMem (Writer.write Unit () (.pair (.prim [7]) (.str [104, 105])) ++ [9]) fun _ => 0) 0
      = .ok (.pair (.prim [7]) (.str [104, 105]), 7) := by
  have h := serializer_round_trip Unit () (.pair (.prim [7]) (.str [104, 105]))
    (.pair (.prim 1) .str)
    (HasTy.pair (HasTy.prim rfl) (HasTy.str (by decide))) (fun _ => 0) [9]
  exact h

/-- Claim C9 counterexample: the claim says that decoding a variant whose
16-bit tag is at least the number of alternatives is an error — a signalled
failure.  It is not: the source passes the decoded tag unchecked to
`mp_with_index<sizeof...(Ts)>` (serializer.h line 466), whose precondition
`index < N` it then violates — an assertion failure in debug builds and
undefined behavior otherwise, with no exception or error result.  Decoding
tag 1 against a one-alternative variant yields the model's
undefined-behavior marker, not an error value (the reader has no
error-signalling outcome at all). -/
theorem variant_oob_tag_not_an_error :
    readVal (.var (.cons (.prim 1) .nil)) (listMem [1, 0] fun _ => 0) 0 = .ub := rfl

/-- Claim C9 (amended): decoding a tagged union reads a 16-bit tag index and,
when the tag selects an existing alternative, produces that alternative (the
round-trip case is stated for an encoded in-range variant); when the decoded
tag is at least the number of alternatives, the tag is passed unchecked into
`mp_with_index`, violating its precondition — the read has no defined
result (`ub`), rather than being a signalled failure. -/
theorem variant_tag_read (ts : TyList) (tag : Nat) (v : Val) (mem : Nat → Nat) (pos : Nat) :
    (HasTy (.var tag v) (.var ts) → fits mem pos (writeVal (.var tag v)) →
      readVal (.var ts) mem pos = .ok (.var tag v, pos + (writeVal (.var tag v)).length)) ∧
    (tyLen ts ≤ dec16 mem pos → readVal (.var ts) mem pos = .ub) := by
  constructor
  · intro h hfits
    exact read_write_bounded (vsize (.var tag v)) _ _ le_rfl h mem pos hfits
  · intro h
    simp only [readVal, readVar_oob (dec16 mem pos) ts h mem (pos + 2)]

/-- Witness for `variant_tag_read`: tag 0 of a one-alternative variant over a
one-byte scalar decodes to that alternative; tag 1 yields the
undefined-behavior marker. -/
theorem variant_tag_read_witness :
    readVal (.var (.cons (.prim 1) .nil)) (listMem [0, 0, 42] fun _ => 0) 0
      = .ok (.var 0 (.prim [42]), 3) ∧
    readVal (.var (.cons (.prim 1) .nil)) (listMem [42, 1] fun _ => 0) 0 = .ub := by
  constructor
  · have h := (variant_tag_read (.cons (.prim 1) .nil) 0 (.prim [42])
      (listMem [0, 0, 42] fun _ => 0) 0).1
      (HasTy.var (by decide) (HasTyVar.zero (HasTy.prim rfl)))
      (fits_listMem [0, 0, 42] [] fun _ => 0)
    exact h
  · exact (variant_tag_read (.cons (.prim 1) .nil) 0 (.prim [])
      (listMem [42, 1] fun _ => 0) 0).2 (by decide)

/-- Claim C10: the `Reader` performs no bounds checking against the end of
its input span.  Every primitive read unconditionally returns the requested
number of bytes of the underlying memory and advances the cursor by exactly
that amount, for every memory and position — there is no error outcome.
Consequently a payload shorter than the encoding of the expected type reads
past the end: a 4-byte scalar decoded from the 1-byte payload `[42]` returns
the payload byte followed by three bytes of whatever follows it in memory,
with the cursor at 4 > 1; a string whose 32-bit length prefix claims 5 bytes
decoded from the 4-byte payload `[5,0,0,0]` returns five out-of-bounds bytes
with the cursor at 9 > 4. -/
theorem reader_no_bounds_check (w : Nat) (mem : Nat → Nat) (pos : Nat) (junk : Nat → Nat) :
    readVal (.prim w) mem pos = .ok (.prim (readBytesL w mem pos), pos + w) ∧
    readVal (.prim 4) (listMem [42] junk) 0 = .ok (.prim [42, junk 0, junk 1, junk 2], 4) ∧
    ([42] : List Nat).length < 4 ∧
    readVal .str (listMem [5, 0, 0, 0] junk) 0
      = .ok (.str [junk 0, junk 1, junk 2, junk 3, junk 4], 9) ∧
    ([5, 0, 0, 0] : List Nat).length < 9 := by
  refine ⟨rfl, rfl, by norm_num, rfl, by norm_num⟩

/-! ## Claim about server dispatch (C7) -/

theorem dispatch_eq (iface : List (Nat × Ty)) (name : Nat) (mem : Nat → Nat) :
    dispatch iface name mem =
      match (build_method_map (iface.map Prod.fst))[lower_bound_idx name
          (build_method_map (iface.map Prod.fst))]? with
      | some e =>
        if e.1 = name then
          .ok (e.2, readVal (iface.getD e.2 (0, .tup .nil)).2 mem 0)
        else .error E_NOTIMPL
      | none => .error E_NOTIMPL := rfl

theorem map_fst_enum_pairs (names : List Nat) :
    ((List.range names.length).map fun i => (names.getD i 0, i)).map Prod.fst = names := by
  apply List.ext_getElem
  · simp
  · intro i h1 h2
    simp only [List.getElem_map, List.getElem_range]
    exact List.getD_eq_getElem names 0 h2

theorem mem_enum_pairs {names : List Nat} {e : Nat × Nat}
    (he : e ∈ (List.range names.length).map fun i => (names.getD i 0, i)) :
    e.2 < names.length ∧ e.1 = names.getD e.2 0 := by
  rcases List.mem_map.mp he with ⟨i, hi, hei⟩
  subst hei
  exact ⟨List.mem_range.mp hi, rfl⟩

theorem build_method_map_sorted (names : List Nat) :
    (build_method_map names).Pairwise fun a b => a.1 ≤ b.1 := by
  have h := List.sorted_mergeSort
    (fun (a b c : Nat × Nat) (h1 : (decide (a.1 ≤ b.1)) = true)
        (h2 : (decide (b.1 ≤ c.1)) = true) => by
      simp only [decide_eq_true_eq] at h1 h2 ⊢
      omega)
    (fun (a b : Nat × Nat) => by
      simp only [Bool.or_eq_true, decide_eq_true_eq]
      omega)
    ((List.range names.length).map fun i => (names.getD i 0, i))
  exact (List.Pairwise.imp (fun hab => by simpa using hab) h :)

theorem build_method_map_perm (names : List Nat) :
    (build_method_map names).Perm
      ((List.range names.length).map fun i => (names.getD i 0, i)) :=
  List.mergeSort_perm _ _

theorem lower_bound_found (name : Nat) :
    ∀ m : List (Nat × Nat), m.Pairwise (fun a b => a.1 ≤ b.1) →
      ((∃ e, m[lower_bound_idx name m]? = some e ∧ e.1 = name) ↔
        name ∈ m.map Prod.fst) := by
  intro m
  induction m with
  | nil => simp [lower_bound_idx]
  | cons e rest ih =>
    intro hp
    have hhead : ∀ b ∈ rest, e.1 ≤ b.1 := (List.pairwise_cons.mp hp).1
    have hrest := (List.pairwise_cons.mp hp).2
    by_cases hlt : e.1 < name
    · simp only [lower_bound_idx, if_pos hlt, List.getElem?_cons_succ]
      rw [ih hrest]
      simp only [List.map_cons, List.mem_cons]
      constructor
      · exact fun h => Or.inr h
      · rintro (h1 | h2)
        · omega
        · exact h2
    · simp only [lower_bound_idx, if_neg hlt, List.getElem?_cons_zero]
      simp only [List.map_cons, List.mem_cons]
      constructor
      · rintro ⟨e', he', heq⟩
        rw [Option.some_inj] at he'
        subst he'
        exact Or.inl heq.symm
      · rintro (h1 | h2)
        · exact ⟨e, rfl, h1.symm⟩
        · rcases List.mem_map.mp h2 with ⟨b, hb, hbname⟩
          have hb1 := hhead b hb
          exact ⟨e, rfl, by omega⟩

/-- Claim C7: `marshal_server::dispatch(method_id, payload)` fails with
`NotImplemented` (`E_NOTIMPL`) if and only if the method id is not the
identifier of any method of the described interface; otherwise the binary
search over the id-sorted method table locates the unique matching entry,
and the implementation of exactly that method — the one whose declared id
equals the requested id, at a unique ordinal — is invoked with the argument
tuple decoded from the payload by `Reader`.  Requires the spec's premise
that method ids are unique across the interface. -/
theorem dispatch_spec (iface : List (Nat × Ty)) (name : Nat) (mem : Nat → Nat)
    (hnd : (iface.map Prod.fst).Nodup) :
    (dispatch iface name mem = .error E_NOTIMPL ↔ name ∉ iface.map Prod.fst) ∧
    (∀ j r, dispatch iface name mem = .ok (j, r) →
      j < iface.length ∧ (iface.map Prod.fst).getD j 0 = name ∧
      r = readVal (iface.getD j (0, Ty.tup .nil)).2 mem 0 ∧
      ∀ j', j' < iface.length → (iface.map Prod.fst).getD j' 0 = name → j' = j) := by
  have hsorted := build_method_map_sorted (iface.map Prod.fst)
  have hperm := build_method_map_perm (iface.map Prod.fst)
  have hfound := lower_bound_found name _ hsorted
  have hmem : ∀ x : Nat,
      (x ∈ (build_method_map (iface.map Prod.fst)).map Prod.fst ↔ x ∈ iface.map Prod.fst) := by
    intro x
    rw [(hperm.map Prod.fst).mem_iff, map_fst_enum_pairs]
  have hentry : ∀ e ∈ build_method_map (iface.map Prod.fst),
      e.2 < iface.length ∧ e.1 = (iface.map Prod.fst).getD e.2 0 := by
    intro e he
    have := mem_enum_pairs (hperm.mem_iff.mp he)
    simpa using this
  constructor
  · rw [dispatch_eq]
    cases hcase : (build_method_map (iface.map Prod.fst))[lower_bound_idx name
        (build_method_map (iface.map Prod.fst))]? with
    | none =>
      simp only []
      constructor
      · intro _ hin
        have := hfound.mpr ((hmem name).mpr hin)
        rcases this with ⟨e', he', _⟩
        rw [hcase] at he'
        cases he'
      · intro _
        trivial
    | some e =>
      by_cases heq : e.1 = name
      · simp only [heq, if_pos rfl]
        constructor
        · intro hc
          cases hc
        · intro hin
          exact absurd ((hmem name).mp (hfound.mp ⟨e, hcase, heq⟩)) hin
      · simp only [if_neg heq]
        constructor
        · intro _ hin
          have := hfound.mpr ((hmem name).mpr hin)
          rcases this with ⟨e', he', heq'⟩
          rw [hcase, Option.some_inj] at he'
          exact heq (he' ▸ heq')
        · intro _
          trivial
  · intro j r hok
    rw [dispatch_eq] at hok
    cases hcase : (build_method_map (iface.map Prod.fst))[lower_bound_idx name
        (build_method_map (iface.map Prod.fst))]? with
    | none =>
      rw [hcase] at hok
      cases hok
    | some e =>
      rw [hcase] at hok
      simp only [] at hok
      by_cases heq : e.1 = name
      · rw [if_pos heq] at hok
        have hje : j = e.2 ∧ r = readVal (iface.getD e.2 (0, Ty.tup .nil)).2 mem 0 := by
          cases hok
          exact ⟨rfl, rfl⟩
        rcases hje with ⟨hj, hr⟩
        subst hj
        have hmem_e := List.getElem?_mem hcase
        have hee := hentry e hmem_e
        refine ⟨by simpa using hee.1, by rw [← hee.2, heq], hr, ?_⟩
        intro j' hj' hname'
        have hlen : (iface.map Prod.fst).length = iface.length := by simp
        have hgj : (iface.map Prod.fst).getD e.2 0 = name := by rw [← hee.2, heq]
        have h1 : (iface.map Prod.fst)[j'] = name := by
          rw [← List.getD_eq_getElem (iface.map Prod.fst) 0 (by omega)]
          exact hname'
        have h2 : (iface.map Prod.fst)[e.2] = name := by
          rw [← List.getD_eq_getElem (iface.map Prod.fst) 0 (by omega)]
          exact hgj
        have : (iface.map Prod.fst)[j'] = (iface.map Prod.fst)[e.2] := by rw [h1, h2]
        exact hnd.getElem_inj_iff.mp this
      · rw [if_neg heq] at hok
        cases hok

/-- Witness for `dispatch_spec` on the interface with ids 5 and 3 (argument
types: a 1-byte scalar, a string): an unknown id fails with `E_NOTIMPL` and
a declared id does not. -/
theorem dispatch_spec_witness :
    dispatch [(5, Ty.prim 1), (3, Ty.str)] 99 (fun _ => 0) = .error E_NOTIMPL ∧
    dispatch [(5, Ty.prim 1), (3, Ty.str)] 3 (fun _ => 0) ≠ .error E_NOTIMPL := by
  have h99 := (dispatch_spec [(5, Ty.prim 1), (3, Ty.str)] 99 (fun _ => 0) (by decide)).1
  have h3 := (dispatch_spec [(5, Ty.prim 1), (3, Ty.str)] 3 (fun _ => 0) (by decide)).1
  constructor
  · exact h99.mpr (by decide)
  · intro hc
    exact (h3.mp hc) (by decide)
